import Mathlib

/-!
Verification of the change-classification engine, pattern detector, noise
filter, review-comment validation and diff-hunk parsing of the `gh-agent`
repository (src/sem.rs, src/commands.rs, and the diff module).

Modelling conventions:
* Rust `&str` / `String` values are modelled as `List Char` (`Str` below).
  Rust `str::len` counts UTF-8 bytes, so it is modelled as the sum of the
  UTF-8 sizes of the characters.
* Rust `f64` similarity values are modelled as `ℚ`: the only arithmetic the
  source performs on them is one division of two small set cardinalities and
  comparisons against the literals `0.8` and `0.5`, which are exact at the
  cardinalities any token set can reach.
* Rust `HashSet` / `HashMap` have an unspecified, randomized iteration
  order.  Wherever the source iterates one (`detect_patterns`), the
  embedding takes the enumeration order of the keys as an explicit
  parameter, constrained only to enumerate exactly the keys of the map
  (`ValidKeyOrder`).  Wherever only membership is used, they are modelled
  as `Finset` or by membership predicates.
-/

/-- Rust strings are modelled as lists of characters. -/
abbrev Str := List Char

/-- Rust `char::is_whitespace`: the Unicode `White_Space` property. -/
def isRustWhitespace (c : Char) : Bool :=
  (0x09 ≤ c.toNat && c.toNat ≤ 0x0D) || c.toNat = 0x20 || c.toNat = 0x85 ||
  c.toNat = 0xA0 || c.toNat = 0x1680 ||
  (0x2000 ≤ c.toNat && c.toNat ≤ 0x200A) ||
  c.toNat = 0x2028 || c.toNat = 0x2029 || c.toNat = 0x202F ||
  c.toNat = 0x205F || c.toNat = 0x3000

/-- Rust `str::len`: the number of UTF-8 bytes of the string. -/
def rustLen (s : Str) : ℕ := (s.map Char.utf8Size).sum

/-- Rust `str::trim`: remove leading and trailing whitespace. -/
def rustTrim (s : Str) : Str :=
  ((s.dropWhile isRustWhitespace).reverse.dropWhile isRustWhitespace).reverse

/-- Rust `str::split_whitespace` (src/sem.rs `tokenize`'s iterator): split on
whitespace runs, yielding the non-empty fragments. -/
def splitWS (s : Str) : List Str :=
  (List.splitOnP isRustWhitespace s).filter (fun t => t ≠ [])

/-- src/sem.rs `tokenize`: collect the whitespace-separated tokens into a
`HashSet<String>`, modelled as a `Finset`. -/
def tokenize (s : Str) : Finset Str := (splitWS s).toFinset

/-- src/sem.rs `jaccard_similarity`.  The `f64` result is modelled as `ℚ`. -/
def jaccard_similarity (before after : Str) : ℚ :=
  if tokenize before = ∅ ∧ tokenize after = ∅ then 1
  else if (tokenize before ∪ tokenize after).card = 0 then 1
  else ((tokenize before ∩ tokenize after).card : ℚ) /
    ((tokenize before ∪ tokenize after).card : ℚ)

/-- src/sem.rs `token_diff`: the two set differences, collected into vectors.
The source collects each `HashSet` difference in the set's unspecified
iteration order; no verified property depends on that order, so the
embedding fixes the first-occurrence enumeration of the same set. -/
def token_diff (before after : Str) : List Str × List Str :=
  ((splitWS before).dedup.filter (fun t => t ∉ tokenize after),
   (splitWS after).dedup.filter (fun t => t ∉ tokenize before))

/-- Rust `str::lines().count()` for a string with no trailing newline
(`is_short_value` only applies it to a trimmed string, which cannot end in
`\n`): the number of `\n` characters plus one, or zero for the empty
string.  The `\r\n` special case of `lines` only affects the fragments'
contents, never the count. -/
def rustLineCount (s : Str) : ℕ := if s = [] then 0 else s.count '\n' + 1

/-- src/sem.rs `is_short_value`: the trimmed content spans at most two lines
and fewer than 200 bytes. -/
def is_short_value (content : Str) : Bool :=
  let trimmed := rustTrim content
  rustLineCount trimmed ≤ 2 && rustLen trimmed < 200

/-- Rust `str::trim_end_matches(';')`: repeatedly strip a trailing `;`. -/
def trimEndSemicolons (s : Str) : Str :=
  (s.reverse.dropWhile (fun c => c = ';')).reverse

/-- The trimming done to each side in src/sem.rs `extract_value_change`:
`s.trim().trim_end_matches(';').trim()`. -/
def trimValueSide (s : Str) : Str := rustTrim (trimEndSemicolons (rustTrim s))

/-- The `extract_rhs` closure in src/sem.rs `extract_value_change`: the
trimmed substring after the first `=`, or the whole string when it has
no `=`. -/
def extract_rhs (s : Str) : Str :=
  if '=' ∈ s then rustTrim (s.dropWhile (fun c => c ≠ '=')).tail else s

/-- src/sem.rs `extract_value_change`. -/
def extract_value_change (before after : Str) : Option (Str × Str) :=
  if ¬ (is_short_value before && is_short_value after) then none
  else
    let b := trimValueSide before
    let a := trimValueSide after
    if b ≠ a then some (extract_rhs b, extract_rhs a) else none

/-- src/sem.rs `ChangeCategory`. -/
inductive ChangeCategory where
  | Mechanical
  | NewLogic
  | Behavioral
deriving DecidableEq, Repr

/-- src/sem.rs `SemChange`: one record from the external semantic-diff
engine. -/
structure SemChange where
  change_type : Str
  entity_type : Str
  entity_name : Str
  file_path : Str
  old_file_path : Option Str
  before_content : Option Str
  after_content : Option Str
deriving DecidableEq, Repr

/-- src/sem.rs `CategorizedChange`. -/
structure CategorizedChange where
  category : ChangeCategory
  change_type : Str
  entity_type : Str
  entity_name : Str
  file_path : Str
  similarity : ℚ
  removed_tokens : List Str
  added_tokens : List Str
  value_change : Option (Str × Str)
deriving DecidableEq, Repr

/-- src/sem.rs `categorize_change`. -/
def categorize_change (c : SemChange) : CategorizedChange :=
  let (category, similarity, removed_tokens, added_tokens, value_change) :=
    match c.before_content, c.after_content with
    | none, some _ => (ChangeCategory.NewLogic, (0 : ℚ), ([] : List Str), ([] : List Str),
        (none : Option (Str × Str)))
    | some _, none => (ChangeCategory.Mechanical, 1, [], [], none)
    | some before, some after =>
        let sim := jaccard_similarity before after
        let d := token_diff before after
        let vc := extract_value_change before after
        let cat :=
          if vc.isSome then ChangeCategory.Behavioral
          else if sim > 0.8 then ChangeCategory.Mechanical
          else if sim < 0.5 then ChangeCategory.NewLogic
          else ChangeCategory.Behavioral
        (cat, sim, d.1, d.2, vc)
    | none, none => (ChangeCategory.Mechanical, 1, [], [], none)
  { category := category
    change_type := c.change_type
    entity_type := c.entity_type
    entity_name := c.entity_name
    file_path := c.file_path
    similarity := similarity
    removed_tokens := removed_tokens
    added_tokens := added_tokens
    value_change := value_change }

/-!
## Pattern detector (src/sem.rs `detect_patterns`)

The source builds a `HashMap<String, Vec<usize>>`: it walks the batch in
order and, for every Mechanical change and every token of byte length ≥ 3
in its `removed_tokens`, pushes the change's position onto the token's
entry.  It then consumes the map with `into_iter()` — whose order is the
hash map's unspecified, randomized iteration order — keeps the entries with
at least two positions, and stably sorts them by descending position-list
length (`sort_by(|a, b| b.1.len().cmp(&a.1.len()))`).

The embedding makes the map explicit as the function `tokenIndices`
(token ↦ its position list, positions in batch order exactly as pushed),
and makes the iteration order an explicit parameter `keyOrder`, constrained
by `ValidKeyOrder` to enumerate exactly the map's keys, each once.  Rust's
`sort_by` is a stable sort, and a stable sort's output is uniquely
determined by its input sequence and comparator, so it is modelled by
stable insertion sort.
-/

/-- The position list the source pushes under key `tok`: walking the batch
from position `i` upward, every Mechanical change contributes one copy of
its position per occurrence of `tok` (byte length ≥ 3) in its
`removed_tokens` vector. -/
def tokenIndicesAux (tok : Str) : ℕ → List CategorizedChange → List ℕ
  | _, [] => []
  | i, c :: cs =>
    (if c.category = ChangeCategory.Mechanical then
      (c.removed_tokens.filter (fun t => decide (3 ≤ rustLen t) && decide (t = tok))).map
        (fun _ => i)
    else []) ++ tokenIndicesAux tok (i + 1) cs

/-- The `token_to_indices` map of src/sem.rs `detect_patterns`, as a
function from key to entry. -/
def tokenIndices (changes : List CategorizedChange) (tok : Str) : List ℕ :=
  tokenIndicesAux tok 0 changes

/-- `keyOrder` is a possible iteration order of the `token_to_indices`
hash map: it enumerates exactly the map's keys (the tokens with a non-empty
entry), each exactly once.  Rust's `HashMap` iteration order is unspecified,
so results about `detect_patterns` quantify over all such orders. -/
def ValidKeyOrder (changes : List CategorizedChange) (keyOrder : List Str) : Prop :=
  keyOrder.Nodup ∧ ∀ tok, tok ∈ keyOrder ↔ tokenIndices changes tok ≠ []

/-- src/sem.rs `detect_patterns`, parameterized by the hash map's iteration
order: keep the entries with at least two positions and stably sort them by
descending position count. -/
def detect_patterns_with (keyOrder : List Str) (changes : List CategorizedChange) :
    List (Str × List ℕ) :=
  List.insertionSort (fun a b => b.2.length ≤ a.2.length)
    ((keyOrder.map (fun tok => (tok, tokenIndices changes tok))).filter
      (fun g => decide (2 ≤ g.2.length)))

/-!
## Triage rendering structure (src/sem.rs `format_smart_output`)

`format_smart_output` renders every pattern group as one summary line,
inserting all of the group's positions into the `grouped_indices` hash set;
it then renders individually every Mechanical change whose position is not
in that set, then every New-Logic change, then every Behavioral change.
The embedding records which positions are rendered where; the literal
formatting of the lines is presentation only and not modelled.
-/

/-- The `grouped_indices` set of src/sem.rs `format_smart_output`: every
position of every detected group (membership is all the source uses). -/
def grouped_indices (patterns : List (Str × List ℕ)) : List ℕ :=
  patterns.flatMap (fun g => g.2)

/-- Positions selected by an indexed filter over the batch, starting at
position `i` — the shape of the three individual-rendering loops of
`format_smart_output`. -/
def selectIdx (p : ℕ → CategorizedChange → Bool) : ℕ → List CategorizedChange → List ℕ
  | _, [] => []
  | i, c :: cs => (if p i c then [i] else []) ++ selectIdx p (i + 1) cs

/-- The positions rendered individually in the MECHANICAL section: category
Mechanical and not claimed by any pattern group. -/
def mechIndividual (patterns : List (Str × List ℕ)) (changes : List CategorizedChange) :
    List ℕ :=
  selectIdx (fun i c =>
    decide (c.category = ChangeCategory.Mechanical) && !(grouped_indices patterns).contains i)
    0 changes

/-- The positions rendered individually in the NEW LOGIC section. -/
def newLogicIdxs (changes : List CategorizedChange) : List ℕ :=
  selectIdx (fun _ c => decide (c.category = ChangeCategory.NewLogic)) 0 changes

/-- The positions rendered individually in the BEHAVIORAL section. -/
def behavioralIdxs (changes : List CategorizedChange) : List ℕ :=
  selectIdx (fun _ c => decide (c.category = ChangeCategory.Behavioral)) 0 changes

/-!
## Noise filter (src/commands.rs `is_noise_file`)
-/

/-- src/commands.rs `NOISE_EXACT`. -/
def NOISE_EXACT : List Str :=
  (["pnpm-lock.yaml", "package-lock.json", "yarn.lock", "npm-shrinkwrap.json",
    "bun.lockb", "Cargo.lock", "Gemfile.lock", "poetry.lock", "Pipfile.lock",
    "uv.lock", "go.sum", "composer.lock", "packages.lock.json", "pubspec.lock",
    "Package.resolved", "mix.lock", ".DS_Store"] : List String).map String.toList

/-- src/commands.rs `NOISE_EXTENSIONS`. -/
def NOISE_EXTENSIONS : List Str :=
  ([".min.js", ".min.css", ".map", ".chunk.js", ".bundle.js"] : List String).map
    String.toList

/-- src/commands.rs `NOISE_PREFIXES`. -/
def NOISE_PREFIXES : List Str :=
  (["dist/", ".next/", "build/", "__generated__/", ".turbo/"] : List String).map
    String.toList

/-- Rust `path.rsplit('/').next().unwrap_or(path)`: the part of the path
after the last `/` (the whole path when it has no `/`). -/
def lastComponent (path : Str) : Str :=
  (path.reverse.takeWhile (fun c => c ≠ '/')).reverse

/-- src/commands.rs `is_noise_file`. -/
def is_noise_file (path : Str) : Bool :=
  if NOISE_EXACT.any (fun n => lastComponent path = n) then true
  else if NOISE_EXTENSIONS.any (fun e => e.isSuffixOf path) then true
  else if NOISE_PREFIXES.any (fun p => p.isPrefixOf path) then true
  else false

/-!
## Review-comment validation (src/commands.rs `pr_review`)

`pr_review` builds `file_commentable : HashMap<String, Vec<u64>>` mapping
each changed file of the PR to its commentable line numbers, then walks the
proposed comments: a comment whose path is not a key of the map, or whose
line is not in the key's vector, is skipped and a warning string is pushed;
otherwise the comment is kept.  After the loop, if no comment was kept the
whole submission fails (`bail!`); otherwise exactly the kept comments are
posted.  The map is modelled as an association list (`HashMap` built by
`collect` keeps the last insertion for a duplicate key, hence the reversed
lookup); the warnings' literal message text is presentation only and is
modelled by a tag carrying the same data.
-/

/-- One proposed review comment (src/commands.rs `CommentInput`). -/
structure CommentInput where
  path : Str
  line : ℕ
  body : Str
  start_line : Option ℕ
deriving DecidableEq, Repr

/-- One validated comment sent to the API
(src/github.rs `ReviewCommentInput`). -/
structure ReviewCommentInput where
  path : Str
  line : ℕ
  body : Str
  start_line : Option ℕ
deriving DecidableEq, Repr

/-- A collected validation warning; the source formats it as a `SKIP:` string,
which the embedding keeps as structured data. -/
inductive ReviewWarning where
  | notChangedFile (path : Str)
  | notCommentable (path : Str) (line : ℕ)
deriving DecidableEq, Repr

/-- Rust `HashMap::get` for a map built by collecting `entries` in order:
the last entry for the key wins. -/
def hashMapGet (entries : List (Str × List ℕ)) (key : Str) : Option (List ℕ) :=
  entries.reverse.lookup key

/-- The validation loop of src/commands.rs `pr_review`: returns the collected
warnings and the validated comments, both in input order. -/
def validateComments (fcl : List (Str × List ℕ)) :
    List CommentInput → List ReviewWarning × List ReviewCommentInput
  | [] => ([], [])
  | c :: cs =>
    let rest := validateComments fcl cs
    match hashMapGet fcl c.path with
    | some cl =>
      if c.line ∈ cl then
        (rest.1, ⟨c.path, c.line, c.body, c.start_line⟩ :: rest.2)
      else
        (ReviewWarning.notCommentable c.path c.line :: rest.1, rest.2)
    | none => (ReviewWarning.notChangedFile c.path :: rest.1, rest.2)

/-- The submission outcome of src/commands.rs `pr_review` after validation:
`none` models the `bail!("No valid comments to post after validation")`
failure, `some v` models posting exactly the validated comments `v`. -/
def pr_review_outcome (fcl : List (Str × List ℕ)) (comments : List CommentInput) :
    Option (List ReviewCommentInput) :=
  let v := (validateComments fcl comments).2
  if v = [] then none else some v

/-!
## Diff hunk parser and commentability index

Modelled from the spec: the repository's `diff` module (declared as
`mod diff;` and used by src/commands.rs and src/format.rs for `parse_patch`
and `commentable_lines`) is absent from the sources, so the definitions
below follow the spec's §4.1/§4.2 word for word: hunk headers
`@@ -O[,OC] +N[,NC] @@...` (counts default to 1) start a hunk and
initialize the line counters; `+` lines (except `+++`) are Add records
carrying and incrementing the new-line counter; `-` lines (except `---`)
are Delete records carrying and incrementing the old-line counter; diff
metadata lines are consumed without emitting a record; every other line is
a Context record carrying and incrementing both counters; an unparseable
header aborts nothing — input is skipped until the next recognizable
header; `commentable_lines` is the new-file line numbers of all Add and
Context records.
-/

/-- The line-kind tag, a closed variant as §9 requires. -/
inductive LineKind where
  | context
  | add
  | delete
deriving DecidableEq, Repr

/-- Modelled from the spec (§3): one structured diff line. -/
structure DiffLine where
  kind : LineKind
  content : Str
  old_line : Option ℕ
  new_line : Option ℕ
deriving DecidableEq, Repr

/-- Modelled from the spec (§3): one hunk of a unified diff. -/
structure DiffHunk where
  header : Str
  old_start : ℕ
  old_count : ℕ
  new_start : ℕ
  new_count : ℕ
  lines : List DiffLine
deriving DecidableEq, Repr

/-- Split a patch string into lines at `\n`, dropping the empty fragment a
trailing newline would produce (Rust `str::lines`). -/
def splitOnNL : Str → List Str
  | [] => [[]]
  | '\n' :: rest => [] :: splitOnNL rest
  | c :: rest =>
    match splitOnNL rest with
    | [] => [[c]]
    | l :: ls => (c :: l) :: ls

/-- The lines of the patch text, final empty fragment dropped. -/
def patchLines (s : Str) : List Str :=
  match (splitOnNL s).reverse with
  | [] => []
  | last :: front => if last = [] then front.reverse else (last :: front).reverse

/-- `p` is a prefix of the line `l`. -/
def lineStartsWith (p : String) (l : Str) : Bool := p.toList.isPrefixOf l

/-- Parse a run of decimal digits; fails on an empty run. -/
def parseNum (s : Str) : Option (ℕ × Str) :=
  let ds := s.takeWhile Char.isDigit
  if ds = [] then none
  else some (ds.foldl (fun n c => 10 * n + (c.toNat - 48)) 0, s.dropWhile Char.isDigit)

/-- Drop the expected prefix, failing when it is absent. -/
def dropExpected (p : String) (s : Str) : Option Str :=
  if p.toList.isPrefixOf s then some (s.drop p.toList.length) else none

/-- Parse the optional `,count` part of a hunk header; 1 when omitted. -/
def parseOptCount : Str → Option (ℕ × Str)
  | ',' :: r => parseNum r
  | s => some (1, s)

/-- Modelled from the spec (§4.1): parse a hunk header
`@@ -O[,OC] +N[,NC] @@...` into `(O, OC, N, NC)`. -/
def parseHunkHeader (line : Str) : Option (ℕ × ℕ × ℕ × ℕ) := do
  let s ← dropExpected "@@ -" line
  let (o, s) ← parseNum s
  let (oc, s) ← parseOptCount s
  let s ← dropExpected " +" s
  let (n, s) ← parseNum s
  let (nc, s) ← parseOptCount s
  let _ ← dropExpected " @@" s
  pure (o, oc, n, nc)

/-- Modelled from the spec (§4.1): diff metadata lines that are consumed but
never emitted as records — no-newline markers, file-mode/rename/similarity
annotations, `---`/`+++` file headers, and index lines. -/
def isMetaLine (l : Str) : Bool :=
  lineStartsWith "+++" l || lineStartsWith "---" l || lineStartsWith "\\" l ||
  lineStartsWith "index " l || lineStartsWith "diff " l ||
  lineStartsWith "old mode" l || lineStartsWith "new mode" l ||
  lineStartsWith "new file mode" l || lineStartsWith "deleted file mode" l ||
  lineStartsWith "rename from" l || lineStartsWith "rename to" l ||
  lineStartsWith "similarity index" l || lineStartsWith "dissimilarity index" l

/-- Parser state: finished hunks, plus the open hunk with its current
old-line and new-line counters. -/
structure ParseState where
  hunks : List DiffHunk
  cur : Option (DiffHunk × ℕ × ℕ)
deriving Repr

/-- Close the open hunk, if any. -/
def closeCur : Option (DiffHunk × ℕ × ℕ) → List DiffHunk
  | none => []
  | some (h, _, _) => [h]

/-- Modelled from the spec (§4.1): consume one line of patch text.  A line
beginning `@@` is a header: if it parses it closes the open hunk and starts
a new one; if not, the open hunk is closed and input is skipped until the
next recognizable header.  Other lines are ignored outside a hunk; inside
one they become Add / Delete / Context records or are consumed as
metadata. -/
def parseStep (st : ParseState) (l : Str) : ParseState :=
  if lineStartsWith "@@" l then
    match parseHunkHeader l with
    | some (o, oc, n, nc) =>
      { hunks := st.hunks ++ closeCur st.cur
        cur := some (⟨l, o, oc, n, nc, []⟩, o, n) }
    | none => { hunks := st.hunks ++ closeCur st.cur, cur := none }
  else
    match st.cur with
    | none => st
    | some (h, ol, nl) =>
      if lineStartsWith "+" l && !lineStartsWith "+++" l then
        { st with cur := some ({ h with
            lines := h.lines ++ [⟨LineKind.add, l.drop 1, none, some nl⟩] }, ol, nl + 1) }
      else if lineStartsWith "-" l && !lineStartsWith "---" l then
        { st with cur := some ({ h with
            lines := h.lines ++ [⟨LineKind.delete, l.drop 1, some ol, none⟩] }, ol + 1, nl) }
      else if isMetaLine l then st
      else
        { st with cur := some ({ h with
            lines := h.lines ++ [⟨LineKind.context,
              (match l with | ' ' :: r => r | _ => l), some ol, some nl⟩] },
          ol + 1, nl + 1) }

/-- Modelled from the spec (§4.1): `parse_patch`, raw patch text to the
ordered hunk sequence. -/
def parse_patch (s : Str) : List DiffHunk :=
  let final := (patchLines s).foldl parseStep ⟨[], none⟩
  final.hunks ++ closeCur final.cur

/-- Modelled from the spec (§4.2): `commentable_lines`, the new-file line
numbers of every Add or Context record across all hunks. -/
def commentable_lines (hunks : List DiffHunk) : List ℕ :=
  hunks.flatMap (fun h => h.lines.filterMap (fun l =>
    match l.kind with
    | LineKind.delete => none
    | _ => l.new_line))

/-!
## Claim-side definitions

These state, in the claims' own words, what the code is claimed to compute;
the theorems below compare them with the definitions taken from the source.
-/

/-- Stated from the claim: the Jaccard similarity of the whitespace-token
sets, 1.0 when the union is empty. -/
def similaritySpec (before after : Str) : ℚ :=
  if tokenize before ∪ tokenize after = ∅ then 1
  else ((tokenize before ∩ tokenize after).card : ℚ) /
    ((tokenize before ∪ tokenize after).card : ℚ)

/-- Stated from the claim: category priority — extracted value change ⇒
Behavioral; else similarity > 0.8 ⇒ Mechanical; else similarity < 0.5 ⇒
NewLogic; else Behavioral. -/
def categorySpec (before after : Str) : ChangeCategory :=
  if (extract_value_change before after).isSome then ChangeCategory.Behavioral
  else if similaritySpec before after > 0.8 then ChangeCategory.Mechanical
  else if similaritySpec before after < 0.5 then ChangeCategory.NewLogic
  else ChangeCategory.Behavioral

/-- Stated from the claim: the positions, in input order, of the Mechanical
changes whose `removed_tokens` contain `tok` (of byte length ≥ 3). -/
def mechPositionsRemoving (tok : Str) (cs : List CategorizedChange) : List ℕ :=
  selectIdx (fun _ c => decide (c.category = ChangeCategory.Mechanical) &&
    decide (tok ∈ c.removed_tokens) && decide (3 ≤ rustLen tok)) 0 cs

/-- Stated from the claim: a proposed comment validates when its file is a
changed file of the PR (a key of the commentable-lines map) and its line is
in that file's commentable-lines set. -/
def commentValid (fcl : List (Str × List ℕ)) (c : CommentInput) : Bool :=
  match hashMapGet fcl c.path with
  | some cl => decide (c.line ∈ cl)
  | none => false

/-- Stated from the claim: the warning collected for a skipped comment —
unknown file, or known file with a non-commentable line. -/
def warningFor (fcl : List (Str × List ℕ)) (c : CommentInput) : ReviewWarning :=
  match hashMapGet fcl c.path with
  | some _ => ReviewWarning.notCommentable c.path c.line
  | none => ReviewWarning.notChangedFile c.path

/-!
## Concrete fixtures used by witnesses and counterexamples
-/

/-- A Mechanical categorized change with the given removed tokens. -/
def mechChange (removed : List Str) : CategorizedChange :=
  { category := ChangeCategory.Mechanical
    change_type := "modified".toList
    entity_type := "function".toList
    entity_name := "f".toList
    file_path := "a.rs".toList
    similarity := 1
    removed_tokens := removed
    added_tokens := []
    value_change := none }

/-- Two Mechanical changes that both removed the tokens `aaa` and `bbb`:
the pattern map has two keys whose groups are the same size. -/
def pairBatch : List CategorizedChange :=
  [mechChange ["aaa".toList, "bbb".toList], mechChange ["aaa".toList, "bbb".toList]]

/-- Three Mechanical changes all removing `unused`, and one removing only
`solo`. -/
def unusedBatch : List CategorizedChange :=
  [mechChange ["unused".toList], mechChange ["unused".toList],
   mechChange ["unused".toList], mechChange ["solo".toList]]

/-- The record of the spec's literal-flip example:
`before = "const DEBUG = false;"`, `after = "const DEBUG = true;"`. -/
def debugChange : SemChange :=
  { change_type := "modified".toList
    entity_type := "const".toList
    entity_name := "DEBUG".toList
    file_path := "config.ts".toList
    old_file_path := none
    before_content := some "const DEBUG = false;".toList
    after_content := some "const DEBUG = true;".toList }

/-- The spec's worked patch text. -/
def examplePatch : Str := "@@ -1,2 +1,3 @@\n context\n-old\n+new1\n+new2".toList

/-- A deleted-entity record: `before_content` present, `after_content`
absent. -/
def delChange : SemChange :=
  { change_type := "deleted".toList
    entity_type := "function".toList
    entity_name := "g".toList
    file_path := "b.rs".toList
    old_file_path := none
    before_content := some "fn g()".toList
    after_content := none }

/-- A record whose sides differ only by a trailing `;` token: no value
change is extracted (the trimmed sides coincide) and the Jaccard similarity
is 5/6. -/
def simChange : SemChange :=
  { change_type := "modified".toList
    entity_type := "function".toList
    entity_name := "f".toList
    file_path := "a.rs".toList
    old_file_path := none
    before_content := some "a b c d e ;".toList
    after_content := some "a b c d e".toList }

/-!
## Supporting lemmas
-/

/-- Membership in the position list pushed under `tok`, for a scan starting
at position `n`. -/
theorem mem_tokenIndicesAux {tok : Str} {i n : ℕ} {cs : List CategorizedChange} :
    i ∈ tokenIndicesAux tok n cs ↔
      ∃ j c, cs[j]? = some c ∧ i = n + j ∧ c.category = ChangeCategory.Mechanical ∧
        tok ∈ c.removed_tokens ∧ 3 ≤ rustLen tok := by
  induction cs generalizing n with
  | nil => simp [tokenIndicesAux]
  | cons c cs ih =>
    rw [tokenIndicesAux, List.mem_append, ih]
    constructor
    · rintro (hh | ⟨j, c', hj, hi, hcat, hmem, hlen⟩)
      · by_cases hc : c.category = ChangeCategory.Mechanical
        · rw [if_pos hc] at hh
          rcases List.mem_map.1 hh with ⟨t, ht, rfl⟩
          rcases List.mem_filter.1 ht with ⟨htmem, hcond⟩
          simp only [Bool.and_eq_true, decide_eq_true_eq] at hcond
          obtain ⟨hlen, rfl⟩ := hcond
          exact ⟨0, c, by simp, by omega, hc, htmem, hlen⟩
        · rw [if_neg hc] at hh
          cases hh
      · exact ⟨j + 1, c', by simpa using hj, by omega, hcat, hmem, hlen⟩
    · rintro ⟨j, c', hj, hi, hcat, hmem, hlen⟩
      cases j with
      | zero =>
        obtain rfl : c = c' := by simpa using hj
        refine Or.inl ?_
        rw [if_pos hcat]
        exact List.mem_map.2 ⟨tok, List.mem_filter.2 ⟨hmem, by simp [hlen]⟩, by omega⟩
      | succ j =>
        exact Or.inr ⟨j, c', by simpa using hj, by omega, hcat, hmem, hlen⟩

/-- Membership in a token's map entry. -/
theorem mem_tokenIndices {tok : Str} {i : ℕ} {cs : List CategorizedChange} :
    i ∈ tokenIndices cs tok ↔
      ∃ c, cs[i]? = some c ∧ c.category = ChangeCategory.Mechanical ∧
        tok ∈ c.removed_tokens ∧ 3 ≤ rustLen tok := by
  rw [tokenIndices, mem_tokenIndicesAux]
  constructor
  · rintro ⟨j, c, hj, hi, h⟩
    obtain rfl : i = j := by omega
    exact ⟨c, hj, h⟩
  · rintro ⟨c, hi, h⟩
    exact ⟨i, c, hi, by omega, h⟩

/-- A token's map entry is non-empty exactly when some Mechanical change
removed it (byte length ≥ 3). -/
theorem tokenIndices_ne_nil_iff {tok : Str} {cs : List CategorizedChange} :
    tokenIndices cs tok ≠ [] ↔
      ∃ c ∈ cs, c.category = ChangeCategory.Mechanical ∧
        tok ∈ c.removed_tokens ∧ 3 ≤ rustLen tok := by
  constructor
  · intro h
    obtain ⟨i, hi⟩ := List.exists_mem_of_ne_nil _ h
    obtain ⟨c, hc, h⟩ := mem_tokenIndices.1 hi
    exact ⟨c, List.getElem?_mem hc, h⟩
  · rintro ⟨c, hc, h⟩
    obtain ⟨j, hj, hget⟩ := List.getElem_of_mem hc
    intro hnil
    have : j ∈ tokenIndices cs tok :=
      mem_tokenIndices.2 ⟨c, by rw [List.getElem?_eq_getElem hj, hget], h⟩
    rw [hnil] at this
    cases this

/-- Membership in an indexed filter over the batch. -/
theorem mem_selectIdx {p : ℕ → CategorizedChange → Bool} {i n : ℕ}
    {cs : List CategorizedChange} :
    i ∈ selectIdx p n cs ↔ ∃ j c, cs[j]? = some c ∧ i = n + j ∧ p i c = true := by
  induction cs generalizing n with
  | nil => simp [selectIdx]
  | cons c cs ih =>
    rw [selectIdx, List.mem_append, ih]
    constructor
    · rintro (hh | ⟨j, c', hj, hi, hp⟩)
      · by_cases hc : p n c = true
        · rw [if_pos hc] at hh
          obtain rfl : i = n := by simpa using hh
          exact ⟨0, c, by simp, by omega, hc⟩
        · rw [if_neg hc] at hh
          cases hh
      · exact ⟨j + 1, c', by simpa using hj, by omega, hp⟩
    · rintro ⟨j, c', hj, hi, hp⟩
      cases j with
      | zero =>
        obtain rfl : c = c' := by simpa using hj
        obtain rfl : i = n := by omega
        exact Or.inl (by rw [if_pos hp]; exact List.mem_singleton.2 rfl)
      | succ j =>
        exact Or.inr ⟨j, c', by simpa using hj, by omega, hp⟩

/-- On a duplicate-free token list, filtering for one token keeps at most
that one token. -/
theorem filter_token_of_nodup {l : List Str} (h : l.Nodup) (tok : Str) :
    l.filter (fun t => decide (3 ≤ rustLen t) && decide (t = tok)) =
      if tok ∈ l ∧ 3 ≤ rustLen tok then [tok] else [] := by
  induction l with
  | nil => simp
  | cons a l ih =>
    rw [List.nodup_cons] at h
    obtain ⟨hna, hnd⟩ := h
    rw [List.filter_cons, ih hnd]
    by_cases ha : a = tok
    · subst ha
      by_cases hlen : 3 ≤ rustLen a
      · have hA : (decide (3 ≤ rustLen a) && decide (a = a)) = true := by simp [hlen]
        have hB : ¬(a ∈ l ∧ 3 ≤ rustLen a) := fun hx => hna hx.1
        have hC : a ∈ a :: l ∧ 3 ≤ rustLen a := ⟨List.mem_cons_self a l, hlen⟩
        rw [if_pos hA, if_neg hB, if_pos hC]
      · have hA : ¬((decide (3 ≤ rustLen a) && decide (a = a)) = true) := by simp [hlen]
        have hB : ¬(a ∈ l ∧ 3 ≤ rustLen a) := fun hx => hlen hx.2
        have hC : ¬(a ∈ a :: l ∧ 3 ≤ rustLen a) := fun hx => hlen hx.2
        rw [if_neg hA, if_neg hB, if_neg hC]
    · have hA : ¬((decide (3 ≤ rustLen a) && decide (a = tok)) = true) := by simp [ha]
      have hme : tok ∈ a :: l ↔ tok ∈ l := by
        simp only [List.mem_cons]
        exact or_iff_right (fun hx => ha hx.symm)
      rw [if_neg hA, if_congr (and_congr_left' hme) rfl rfl]

/-- When every change's `removed_tokens` is duplicate-free (as the
classifier guarantees: they are collected from a set difference), a token's
map entry is exactly the positions of the Mechanical changes that removed
it. -/
theorem tokenIndices_eq_mechPositionsRemoving {cs : List CategorizedChange}
    (h : ∀ c ∈ cs, c.removed_tokens.Nodup) (tok : Str) :
    tokenIndices cs tok = mechPositionsRemoving tok cs := by
  rw [tokenIndices, mechPositionsRemoving]
  generalize 0 = n
  induction cs generalizing n with
  | nil => rfl
  | cons c cs ih =>
    have hc := h c (List.mem_cons_self c cs)
    have hcs : ∀ c' ∈ cs, c'.removed_tokens.Nodup :=
      fun c' hc' => h c' (List.mem_cons_of_mem c hc')
    rw [tokenIndicesAux, selectIdx, ih hcs]
    congr 1
    by_cases hcat : c.category = ChangeCategory.Mechanical
    · rw [if_pos hcat, filter_token_of_nodup hc tok]
      by_cases hcond : tok ∈ c.removed_tokens ∧ 3 ≤ rustLen tok
      · rw [if_pos hcond, if_pos (by simp [hcat, hcond.1, hcond.2])]
        rfl
      · rw [if_neg hcond, if_neg ?_]
        · rfl
        · simp only [Bool.and_eq_true, decide_eq_true_eq]
          rintro ⟨⟨-, hmem⟩, hlen⟩
          exact hcond ⟨hmem, hlen⟩
    · rw [if_neg hcat, if_neg (by simp [hcat])]

/-- Membership in the detector's output, for an arbitrary map iteration
order. -/
theorem pair_mem_detect_patterns_with {ko : List Str} {cs : List CategorizedChange}
    {tok : Str} {idxs : List ℕ} :
    (tok, idxs) ∈ detect_patterns_with ko cs ↔
      tok ∈ ko ∧ idxs = tokenIndices cs tok ∧ 2 ≤ idxs.length := by
  rw [detect_patterns_with, List.mem_insertionSort, List.mem_filter]
  simp only [List.mem_map, decide_eq_true_eq, Prod.mk.injEq]
  constructor
  · rintro ⟨⟨t, ht, rfl, rfl⟩, hlen⟩
    exact ⟨ht, rfl, hlen⟩
  · rintro ⟨ht, rfl, hlen⟩
    exact ⟨⟨tok, ht, rfl, rfl⟩, hlen⟩

/-- The detector's output is sorted by descending group size. -/
theorem detect_patterns_with_sorted (ko : List Str) (cs : List CategorizedChange) :
    (detect_patterns_with ko cs).Pairwise
      (fun a b : Str × List ℕ => b.2.length ≤ a.2.length) := by
  haveI : IsTotal (Str × List ℕ) (fun a b => b.2.length ≤ a.2.length) :=
    ⟨fun a b => le_total _ _⟩
  haveI : IsTrans (Str × List ℕ) (fun a b => b.2.length ≤ a.2.length) :=
    ⟨fun _ _ _ h1 h2 => le_trans h2 h1⟩
  exact List.sorted_insertionSort _ _

/-- The detector's output only depends on the set of keys enumerated, up to
reordering equal-size groups: any two valid iteration orders give
permutations of one another. -/
theorem detect_patterns_with_perm {cs : List CategorizedChange} {k1 k2 : List Str}
    (h1 : ValidKeyOrder cs k1) (h2 : ValidKeyOrder cs k2) :
    (detect_patterns_with k1 cs).Perm (detect_patterns_with k2 cs) := by
  have hk : k1.Perm k2 :=
    (List.perm_ext_iff_of_nodup h1.1 h2.1).2 (fun t => by rw [h1.2 t, h2.2 t])
  have p1 : (detect_patterns_with k1 cs).Perm
      ((k1.map (fun tok => (tok, tokenIndices cs tok))).filter
        (fun g => decide (2 ≤ g.2.length))) := List.perm_insertionSort _ _
  have p2 : ((k1.map (fun tok => (tok, tokenIndices cs tok))).filter
        (fun g => decide (2 ≤ g.2.length))).Perm
      ((k2.map (fun tok => (tok, tokenIndices cs tok))).filter
        (fun g => decide (2 ≤ g.2.length))) := (hk.map _).filter _
  have p3 : (detect_patterns_with k2 cs).Perm
      ((k2.map (fun tok => (tok, tokenIndices cs tok))).filter
        (fun g => decide (2 ≤ g.2.length))) := List.perm_insertionSort _ _
  exact (p1.trans p2).trans p3.symm

/-- Unfolding of the classifier in the present/present case. -/
theorem categorize_change_some_some (ct et en fp : Str) (ofp : Option Str)
    (before after : Str) :
    categorize_change ⟨ct, et, en, fp, ofp, some before, some after⟩ =
      { category :=
          if (extract_value_change before after).isSome then ChangeCategory.Behavioral
          else if jaccard_similarity before after > 0.8 then ChangeCategory.Mechanical
          else if jaccard_similarity before after < 0.5 then ChangeCategory.NewLogic
          else ChangeCategory.Behavioral
        change_type := ct
        entity_type := et
        entity_name := en
        file_path := fp
        similarity := jaccard_similarity before after
        removed_tokens := (token_diff before after).1
        added_tokens := (token_diff before after).2
        value_change := extract_value_change before after } := rfl

/-- The source's `jaccard_similarity` computes the claim's Jaccard value:
its first branch (both token sets empty) coincides with the empty-union
branch, and a union has cardinality zero exactly when it is empty. -/
theorem jaccard_eq_similaritySpec (before after : Str) :
    jaccard_similarity before after = similaritySpec before after := by
  rw [jaccard_similarity, similaritySpec]
  by_cases h : tokenize before ∪ tokenize after = ∅
  · rw [if_pos (Finset.union_eq_empty.1 h), if_pos h]
  · have hab : ¬(tokenize before = ∅ ∧ tokenize after = ∅) :=
      fun hx => h (Finset.union_eq_empty.2 hx)
    have hcard : ¬((tokenize before ∪ tokenize after).card = 0) := by
      simpa [Finset.card_eq_zero] using h
    rw [if_neg hab, if_neg hcard, if_neg h]

/-- `["aaa", "bbb"]` is a valid iteration order for `pairBatch`'s map. -/
theorem validKeyOrder_pair_ab : ValidKeyOrder pairBatch ["aaa".toList, "bbb".toList] := by
  refine ⟨by decide, fun tok => ?_⟩
  rw [tokenIndices_ne_nil_iff]
  constructor
  · intro h
    fin_cases h <;> decide
  · rintro ⟨c, hc, hcat, hmem, hlen⟩
    obtain rfl : c = mechChange ["aaa".toList, "bbb".toList] := by
      simpa [pairBatch] using hc
    rcases (by simpa [mechChange] using hmem :
        tok = "aaa".toList ∨ tok = "bbb".toList) with rfl | rfl <;> simp

/-- `["bbb", "aaa"]` is equally a valid iteration order for `pairBatch`'s
map: the hash map's order is unconstrained. -/
theorem validKeyOrder_pair_ba : ValidKeyOrder pairBatch ["bbb".toList, "aaa".toList] := by
  refine ⟨by decide, fun tok => ?_⟩
  rw [tokenIndices_ne_nil_iff]
  constructor
  · intro h
    fin_cases h <;> decide
  · rintro ⟨c, hc, hcat, hmem, hlen⟩
    obtain rfl : c = mechChange ["aaa".toList, "bbb".toList] := by
      simpa [pairBatch] using hc
    rcases (by simpa [mechChange] using hmem :
        tok = "aaa".toList ∨ tok = "bbb".toList) with rfl | rfl <;> simp

/-- `["unused", "solo"]` is a valid iteration order for `unusedBatch`'s
map. -/
theorem validKeyOrder_unused :
    ValidKeyOrder unusedBatch ["unused".toList, "solo".toList] := by
  refine ⟨by decide, fun tok => ?_⟩
  rw [tokenIndices_ne_nil_iff]
  constructor
  · intro h
    fin_cases h <;> decide
  · rintro ⟨c, hc, hcat, hmem, hlen⟩
    rcases (by simpa [unusedBatch] using hc :
        c = mechChange ["unused".toList] ∨ c = mechChange ["solo".toList]) with rfl | rfl
    · obtain rfl : tok = "unused".toList := by simpa [mechChange] using hmem
      simp
    · obtain rfl : tok = "solo".toList := by simpa [mechChange] using hmem
      simp

/-- The validation loop of `pr_review` splits the proposed comments by the
validity predicate: invalid ones become warnings, valid ones are kept, both
in input order. -/
theorem validateComments_eq (fcl : List (Str × List ℕ)) (cs : List CommentInput) :
    validateComments fcl cs =
      ((cs.filter (fun c => !commentValid fcl c)).map (fun c => warningFor fcl c),
       (cs.filter (fun c => commentValid fcl c)).map
         (fun c => (⟨c.path, c.line, c.body, c.start_line⟩ : ReviewCommentInput))) := by
  induction cs with
  | nil => rfl
  | cons c cs ih =>
    rw [validateComments, ih]
    cases hg : hashMapGet fcl c.path with
    | some cl =>
      have hval : commentValid fcl c = decide (c.line ∈ cl) := by rw [commentValid, hg]
      have hwf : warningFor fcl c = ReviewWarning.notCommentable c.path c.line := by
        rw [warningFor, hg]
      dsimp only
      by_cases hl : c.line ∈ cl
      · rw [if_pos hl, List.filter_cons, List.filter_cons]
        simp [hval, hwf, hl]
      · rw [if_neg hl, List.filter_cons, List.filter_cons]
        simp [hval, hwf, hl]
    | none =>
      have hval : commentValid fcl c = false := by rw [commentValid, hg]
      have hwf : warningFor fcl c = ReviewWarning.notChangedFile c.path := by
        rw [warningFor, hg]
      dsimp only
      rw [List.filter_cons, List.filter_cons]
      simp [hval, hwf]

/-!
## Claim theorems
-/

/-- C1: for every record with both `before_content` and `after_content`
present, the classifier assigns similarity equal to the Jaccard similarity
of the whitespace-token sets (1.0 when the union is empty), and assigns the
category by this priority: extracted value change ⇒ Behavioral; else
similarity > 0.8 ⇒ Mechanical; else similarity < 0.5 ⇒ NewLogic; else
Behavioral. -/
theorem c1_present_present_classification (c : SemChange) (before after : Str)
    (hb : c.before_content = some before) (ha : c.after_content = some after) :
    (categorize_change c).similarity = similaritySpec before after ∧
    (categorize_change c).category = categorySpec before after := by
  obtain ⟨ct, et, en, fp, ofp, bc, ac⟩ := c
  cases hb
  cases ha
  rw [categorize_change_some_some]
  refine ⟨jaccard_eq_similaritySpec before after, ?_⟩
  rw [categorySpec, ← jaccard_eq_similaritySpec before after]

/-- Witness for C1 at a concrete record: similarity 5/6 and, since no value
change is extracted and 5/6 > 0.8, category Mechanical. -/
theorem c1_witness :
    (categorize_change simChange).similarity = 5 / 6 ∧
    (categorize_change simChange).category = ChangeCategory.Mechanical := by
  obtain ⟨h1, h2⟩ :=
    c1_present_present_classification simChange "a b c d e ;".toList "a b c d e".toList rfl rfl
  have hs : similaritySpec "a b c d e ;".toList "a b c d e".toList = 5 / 6 := by
    rw [similaritySpec, if_neg (by decide)]
    have e1 : (tokenize "a b c d e ;".toList ∩ tokenize "a b c d e".toList).card = 5 := by
      decide
    have e2 : (tokenize "a b c d e ;".toList ∪ tokenize "a b c d e".toList).card = 6 := by
      decide
    rw [e1, e2]
    norm_num
  refine ⟨by rw [h1, hs], ?_⟩
  rw [h2, categorySpec, if_neg (by decide), hs, if_pos (by norm_num)]

/-- C5: the classifier is a total function, and on absent content returns
the decision-table values — before absent and after present gives NewLogic
with similarity 0.0; before present and after absent gives Mechanical with
similarity 1.0; both absent gives Mechanical with similarity 1.0. -/
theorem c5_absent_content_cases (ct et en fp : Str) (ofp : Option Str) (s s' : Str) :
    (categorize_change ⟨ct, et, en, fp, ofp, none, some s⟩).category =
        ChangeCategory.NewLogic ∧
    (categorize_change ⟨ct, et, en, fp, ofp, none, some s⟩).similarity = 0 ∧
    (categorize_change ⟨ct, et, en, fp, ofp, some s', none⟩).category =
        ChangeCategory.Mechanical ∧
    (categorize_change ⟨ct, et, en, fp, ofp, some s', none⟩).similarity = 1 ∧
    (categorize_change ⟨ct, et, en, fp, ofp, none, none⟩).category =
        ChangeCategory.Mechanical ∧
    (categorize_change ⟨ct, et, en, fp, ofp, none, none⟩).similarity = 1 :=
  ⟨rfl, rfl, rfl, rfl, rfl, rfl⟩

/-- C6: value-change extraction returns a pair exactly when both sides are
short (at most 2 lines, under 200 bytes after trimming) and their trimmed
forms (trailing `;` and surrounding whitespace removed) differ, in which
case it returns the trimmed substrings after the first `=` of each side
(the whole trimmed string when there is no `=`); and the spec's example
`const DEBUG = false;` → `const DEBUG = true;` yields
`value_change = ("false", "true")` with category Behavioral. -/
theorem c6_value_change_extraction :
    (∀ before after : Str,
      extract_value_change before after =
        if is_short_value before && is_short_value after then
          if trimValueSide before ≠ trimValueSide after then
            some (extract_rhs (trimValueSide before), extract_rhs (trimValueSide after))
          else none
        else none) ∧
    (categorize_change debugChange).value_change =
      some ("false".toList, "true".toList) ∧
    (categorize_change debugChange).category = ChangeCategory.Behavioral := by
  refine ⟨fun before after => ?_, by decide, by decide⟩
  simp only [extract_value_change, ite_not]

/-- C9: `is_noise_file` returns true exactly when one of the three rule
sets matches — an exact filename match, a suffix match, or a path-prefix
match — and returns false (not noise, fails open) on the empty path and on
every path matching no rule. -/
theorem c9_noise_filter :
    (∀ path : Str,
      is_noise_file path = true ↔
        (∃ n ∈ NOISE_EXACT, lastComponent path = n) ∨
        (∃ e ∈ NOISE_EXTENSIONS, ∃ t, path = t ++ e) ∨
        (∃ p ∈ NOISE_PREFIXES, ∃ t, path = p ++ t)) ∧
    is_noise_file [] = false := by
  refine ⟨fun path => ?_, by decide⟩
  constructor
  · intro h
    rw [is_noise_file] at h
    split_ifs at h with h1 h2 h3
    · obtain ⟨n, hn, hd⟩ := List.any_eq_true.1 h1
      exact Or.inl ⟨n, hn, of_decide_eq_true hd⟩
    · obtain ⟨e, he, hd⟩ := List.any_eq_true.1 h2
      obtain ⟨t, ht⟩ := List.isSuffixOf_iff_suffix.1 hd
      exact Or.inr (Or.inl ⟨e, he, t, ht.symm⟩)
    · obtain ⟨p, hp, hd⟩ := List.any_eq_true.1 h3
      obtain ⟨t, ht⟩ := List.isPrefixOf_iff_prefix.1 hd
      exact Or.inr (Or.inr ⟨p, hp, t, ht.symm⟩)
  · intro h
    rw [is_noise_file]
    split_ifs with h1 h2 h3
    · rfl
    · rfl
    · rfl
    · rcases h with ⟨n, hn, he⟩ | ⟨e, he, t, ht⟩ | ⟨p, hp, t, ht⟩
      · exact absurd (List.any_eq_true.2 ⟨n, hn, decide_eq_true he⟩) h1
      · refine absurd (List.any_eq_true.2 ⟨e, he, ?_⟩) h2
        exact List.isSuffixOf_iff_suffix.2 ⟨t, ht.symm⟩
      · refine absurd (List.any_eq_true.2 ⟨p, hp, ?_⟩) h3
        exact List.isPrefixOf_iff_prefix.2 ⟨t, ht.symm⟩

/-- C2 counterexample: the claim's tie-break ("groups of equal size appear
in first-seen input order") fails on the code.  In `pairBatch` the token
`aaa` is seen before `bbb`, so the claim predicts the output
`[(aaa, [0,1]), (bbb, [0,1])]`; but the source iterates a `HashMap` whose
order is unspecified, and under the equally valid iteration order
`[bbb, aaa]` the stable descending-size sort keeps `bbb` first. -/
theorem c2_counterexample :
    ValidKeyOrder pairBatch ["bbb".toList, "aaa".toList] ∧
    detect_patterns_with ["bbb".toList, "aaa".toList] pairBatch ≠
      [("aaa".toList, [0, 1]), ("bbb".toList, [0, 1])] :=
  ⟨validKeyOrder_pair_ba, by decide⟩

/-- C2 (amended): for every batch whose `removed_tokens` lists are
duplicate-free (as the classifier produces them) and every valid iteration
order of the token map, the detector returns exactly the tokens of byte
length ≥ 3 removed by at least 2 Mechanical changes, each paired with the
positions (in input order) of the Mechanical changes that removed it, and
the groups are sorted by descending size; the relative order of equal-size
groups follows the hash map's unspecified iteration order, not first-seen
order. -/
theorem c2_amended_detector (cs : List CategorizedChange) (ko : List Str)
    (hv : ValidKeyOrder cs ko) (hnd : ∀ c ∈ cs, c.removed_tokens.Nodup) :
    (∀ tok idxs, ((tok, idxs) ∈ detect_patterns_with ko cs ↔
        idxs = mechPositionsRemoving tok cs ∧ 2 ≤ idxs.length)) ∧
    (detect_patterns_with ko cs).Pairwise
      (fun a b : Str × List ℕ => b.2.length ≤ a.2.length) := by
  refine ⟨fun tok idxs => ?_, detect_patterns_with_sorted ko cs⟩
  rw [pair_mem_detect_patterns_with, tokenIndices_eq_mechPositionsRemoving hnd]
  constructor
  · rintro ⟨-, rfl, hlen⟩
    exact ⟨rfl, hlen⟩
  · rintro ⟨rfl, hlen⟩
    refine ⟨?_, rfl, hlen⟩
    rw [hv.2, tokenIndices_eq_mechPositionsRemoving hnd]
    intro hnil
    rw [hnil] at hlen
    simp at hlen

/-- Witness for the amended C2: three Mechanical changes all removing
`unused` yield the group `(unused, [0,1,2])`, and `solo`, removed by only
one change, yields no group. -/
theorem c2_amended_witness :
    ("unused".toList, [0, 1, 2]) ∈
      detect_patterns_with ["unused".toList, "solo".toList] unusedBatch ∧
    ∀ idxs, ("solo".toList, idxs) ∉
      detect_patterns_with ["unused".toList, "solo".toList] unusedBatch := by
  have h := c2_amended_detector unusedBatch ["unused".toList, "solo".toList]
    validKeyOrder_unused (by decide)
  refine ⟨(h.1 _ _).2 ⟨by decide, by decide⟩, fun idxs hmem => ?_⟩
  obtain ⟨rfl, hlen⟩ := (h.1 _ _).1 hmem
  revert hlen
  decide

/-- C3 counterexample: the detector is not deterministic given the batch's
order.  Both `[aaa, bbb]` and `[bbb, aaa]` are possible iteration orders of
the randomized `HashMap` for the same ordered batch `pairBatch`, and they
produce different output sequences. -/
theorem c3_counterexample :
    ValidKeyOrder pairBatch ["aaa".toList, "bbb".toList] ∧
    ValidKeyOrder pairBatch ["bbb".toList, "aaa".toList] ∧
    detect_patterns_with ["aaa".toList, "bbb".toList] pairBatch ≠
      detect_patterns_with ["bbb".toList, "aaa".toList] pairBatch :=
  ⟨validKeyOrder_pair_ab, validKeyOrder_pair_ba, by decide⟩

/-- C3 (amended): given the batch's order, the detector's output is
determined up to the relative order of equal-size groups — any two runs
(valid iteration orders) produce permutations of one another, and each run
is sorted by descending group size. -/
theorem c3_amended_determinism (cs : List CategorizedChange) (k1 k2 : List Str)
    (h1 : ValidKeyOrder cs k1) (h2 : ValidKeyOrder cs k2) :
    (detect_patterns_with k1 cs).Perm (detect_patterns_with k2 cs) ∧
    (detect_patterns_with k1 cs).Pairwise
      (fun a b : Str × List ℕ => b.2.length ≤ a.2.length) ∧
    (detect_patterns_with k2 cs).Pairwise
      (fun a b : Str × List ℕ => b.2.length ≤ a.2.length) :=
  ⟨detect_patterns_with_perm h1 h2, detect_patterns_with_sorted k1 cs,
   detect_patterns_with_sorted k2 cs⟩

/-- Witness for the amended C3 at the concrete batch and two concrete
runs. -/
theorem c3_amended_witness :
    (detect_patterns_with ["aaa".toList, "bbb".toList] pairBatch).Perm
      (detect_patterns_with ["bbb".toList, "aaa".toList] pairBatch) :=
  (c3_amended_determinism pairBatch ["aaa".toList, "bbb".toList]
    ["bbb".toList, "aaa".toList] validKeyOrder_pair_ab validKeyOrder_pair_ba).1

/-- C4 counterexample: a change position can belong to two rendered groups.
In `pairBatch` both changes removed both `aaa` and `bbb`, so position 0
belongs to both rendered groups — `format_smart_output` renders every
detected group and never deduplicates positions across groups. -/
theorem c4_counterexample :
    ValidKeyOrder pairBatch ["aaa".toList, "bbb".toList] ∧
    ¬((detect_patterns_with ["aaa".toList, "bbb".toList] pairBatch).filter
        (fun g => decide (0 ∈ g.2))).length ≤ 1 :=
  ⟨validKeyOrder_pair_ab, by decide⟩

/-- C4 (amended): in the rendered triage output, a Mechanical change is
rendered individually exactly when no rendered group claims its position
(though a position may belong to several rendered groups); every member of
every rendered group is a Mechanical change's position; and NewLogic and
Behavioral changes are never group members — they are always rendered
individually in their own sections. -/
theorem c4_amended_rendering (cs : List CategorizedChange) (ko : List Str) :
    (∀ i, i ∈ mechIndividual (detect_patterns_with ko cs) cs ↔
      (∃ c, cs[i]? = some c ∧ c.category = ChangeCategory.Mechanical) ∧
      ∀ g ∈ detect_patterns_with ko cs, i ∉ g.2) ∧
    (∀ g ∈ detect_patterns_with ko cs, ∀ i ∈ g.2,
      ∃ c, cs[i]? = some c ∧ c.category = ChangeCategory.Mechanical) ∧
    (∀ i, i ∈ newLogicIdxs cs ↔
      ∃ c, cs[i]? = some c ∧ c.category = ChangeCategory.NewLogic) ∧
    (∀ i, i ∈ behavioralIdxs cs ↔
      ∃ c, cs[i]? = some c ∧ c.category = ChangeCategory.Behavioral) := by
  refine ⟨fun i => ?_, ?_, fun i => ?_, fun i => ?_⟩
  · rw [mechIndividual, mem_selectIdx]
    constructor
    · rintro ⟨j, c, hj, hi, hp⟩
      obtain rfl : i = j := by omega
      rw [Bool.and_eq_true, decide_eq_true_eq] at hp
      obtain ⟨hcat, hng⟩ := hp
      have hnotin : i ∉ grouped_indices (detect_patterns_with ko cs) := by
        simpa using hng
      refine ⟨⟨c, hj, hcat⟩, fun g hg hig => hnotin ?_⟩
      rw [grouped_indices, List.mem_flatMap]
      exact ⟨g, hg, hig⟩
    · rintro ⟨⟨c, hc, hcat⟩, hng⟩
      refine ⟨i, c, hc, by omega, ?_⟩
      rw [Bool.and_eq_true, decide_eq_true_eq]
      refine ⟨hcat, ?_⟩
      have hnotin : i ∉ grouped_indices (detect_patterns_with ko cs) := by
        rw [grouped_indices, List.mem_flatMap]
        rintro ⟨g, hg, hig⟩
        exact hng g hg hig
      simpa using hnotin
  · rintro ⟨tok, idxs⟩ hg i hi
    obtain ⟨-, rfl, -⟩ := pair_mem_detect_patterns_with.1 hg
    obtain ⟨c, hc, hcat, -, -⟩ := mem_tokenIndices.1 hi
    exact ⟨c, hc, hcat⟩
  · rw [newLogicIdxs, mem_selectIdx]
    constructor
    · rintro ⟨j, c, hj, hi, hp⟩
      obtain rfl : i = j := by omega
      exact ⟨c, hj, by simpa using hp⟩
    · rintro ⟨c, hc, hcat⟩
      exact ⟨i, c, hc, by omega, by simpa using hcat⟩
  · rw [behavioralIdxs, mem_selectIdx]
    constructor
    · rintro ⟨j, c, hj, hi, hp⟩
      obtain rfl : i = j := by omega
      exact ⟨c, hj, by simpa using hp⟩
    · rintro ⟨c, hc, hcat⟩
      exact ⟨i, c, hc, by omega, by simpa using hcat⟩

/-- C7: parsing the spec's worked patch text yields one hunk with
`old_start = 1`, `new_start = 1` and, in order, the records
Context(old 1, new 1, "context"), Delete(old 2, "old"),
Add(new 2, "new1"), Add(new 3, "new2"); its commentable-lines set —
the new-file lines of the Add and Context records, Delete excluded — is
exactly {1, 2, 3}. -/
theorem c7_worked_patch_example :
    parse_patch examplePatch =
      [{ header := "@@ -1,2 +1,3 @@".toList, old_start := 1, old_count := 2,
         new_start := 1, new_count := 3,
         lines := [⟨LineKind.context, "context".toList, some 1, some 1⟩,
                   ⟨LineKind.delete, "old".toList, some 2, none⟩,
                   ⟨LineKind.add, "new1".toList, none, some 2⟩,
                   ⟨LineKind.add, "new2".toList, none, some 3⟩] }] ∧
    commentable_lines (parse_patch examplePatch) = [1, 2, 3] ∧
    (∀ n, n ∈ commentable_lines (parse_patch examplePatch) ↔ n = 1 ∨ n = 2 ∨ n = 3) := by
  refine ⟨by decide, by decide, fun n => ?_⟩
  rw [show commentable_lines (parse_patch examplePatch) = [1, 2, 3] from by decide]
  simp

/-- C8: during review submission each proposed comment whose file is not a
changed file of the PR, or whose line is not in that file's
commentable-lines set, is skipped with a collected warning rather than
aborting the batch; the submission fails exactly when zero comments
validate, and otherwise exactly the validating comments are posted. -/
theorem c8_review_submission (fcl : List (Str × List ℕ)) (comments : List CommentInput) :
    (validateComments fcl comments).1 =
      (comments.filter (fun c => !commentValid fcl c)).map (fun c => warningFor fcl c) ∧
    (validateComments fcl comments).2 =
      (comments.filter (fun c => commentValid fcl c)).map
        (fun c => (⟨c.path, c.line, c.body, c.start_line⟩ : ReviewCommentInput)) ∧
    pr_review_outcome fcl comments =
      (if comments.filter (fun c => commentValid fcl c) = [] then none
       else some ((comments.filter (fun c => commentValid fcl c)).map
         (fun c => (⟨c.path, c.line, c.body, c.start_line⟩ : ReviewCommentInput)))) := by
  have h := validateComments_eq fcl comments
  refine ⟨by rw [h], by rw [h], ?_⟩
  simp only [pr_review_outcome, h]
  rw [if_congr List.map_eq_nil_iff rfl rfl]

/-- C10 (implicit): whenever `before_content` or `after_content` is absent
the classifier returns empty `removed_tokens` and `added_tokens`;
consequently a change whose `removed_tokens` is empty — in particular a
deleted entity, classified Mechanical with similarity 1.0 — can never be a
member of any pattern group, because grouping keys only on
`removed_tokens`. -/
theorem c10_absent_content_never_grouped :
    (∀ c : SemChange, c.before_content = none ∨ c.after_content = none →
      (categorize_change c).removed_tokens = [] ∧
      (categorize_change c).added_tokens = []) ∧
    (∀ (cs : List CategorizedChange) (ko : List Str) (i : ℕ) (c : CategorizedChange),
      cs[i]? = some c → c.removed_tokens = [] →
      ∀ g ∈ detect_patterns_with ko cs, i ∉ g.2) := by
  constructor
  · rintro ⟨ct, et, en, fp, ofp, bc, ac⟩ h
    cases bc with
    | none => cases ac <;> exact ⟨rfl, rfl⟩
    | some b =>
      cases ac with
      | none => exact ⟨rfl, rfl⟩
      | some a => rcases h with h | h <;> cases h
  · rintro cs ko i c hget hrem ⟨tok, idxs⟩ hg hi
    obtain ⟨-, rfl, -⟩ := pair_mem_detect_patterns_with.1 hg
    obtain ⟨c', hget', hcat', hmem', -⟩ := mem_tokenIndices.1 hi
    rw [hget] at hget'
    obtain rfl : c = c' := Option.some.inj hget'
    rw [hrem] at hmem'
    cases hmem'

/-- Witness for C10: a concrete deleted entity is classified with empty
token diffs, and its position joins no pattern group. -/
theorem c10_witness :
    ((categorize_change delChange).removed_tokens = [] ∧
     (categorize_change delChange).added_tokens = []) ∧
    ∀ g ∈ detect_patterns_with ["aaa".toList] [categorize_change delChange], 0 ∉ g.2 := by
  refine ⟨c10_absent_content_never_grouped.1 delChange (Or.inr rfl), ?_⟩
  exact c10_absent_content_never_grouped.2 [categorize_change delChange] ["aaa".toList]
    0 (categorize_change delChange) rfl
    (c10_absent_content_never_grouped.1 delChange (Or.inr rfl)).1

/-- Witness for the amended C4 at a concrete batch and iteration order:
position 0 is a Mechanical change's position inside a rendered group, and
it is not rendered individually. -/
theorem c4_amended_witness :
    (∃ c, pairBatch[0]? = some c ∧ c.category = ChangeCategory.Mechanical) ∧
    0 ∉ mechIndividual
      (detect_patterns_with ["aaa".toList, "bbb".toList] pairBatch) pairBatch := by
  constructor
  · exact (c4_amended_rendering pairBatch ["aaa".toList, "bbb".toList]).2.1
      ("aaa".toList, [0, 1]) (by decide) 0 (by decide)
  · intro hmem
    obtain ⟨-, hng⟩ :=
      ((c4_amended_rendering pairBatch ["aaa".toList, "bbb".toList]).1 0).1 hmem
    exact hng ("aaa".toList, [0, 1]) (by decide) (by decide)
